import Mathlib

/-!
Verification of the basicv8vc/jax-tutorials-for-pytorchers notebooks.

The repository consists of three Jupyter notebooks training an MLP on MNIST
with JAX/Flax.  The code authored by the repository itself is embedded here:

* the pure-JAX notebook: `random_layer_params`, `init_network_params`,
  `relu`, `model_forward`, `batched_forward`, `one_hot`, `loss`,
  `sgd_update`, `accuracy`;
* the shared data-loading shim: `numpy_collate`, `JAXRandomSampler`,
  `NumpyLoader`;
* the Flax notebook evaluation loop: `eval_model`.

Modelling conventions:

* Floating-point arrays are modelled as lists over a linear ordered field
  (instantiated with `ℚ` for executable witnesses and with `ℝ` where the
  transcendental functions `exp`/`log` matter).  `Real.exp`/`Real.log` are
  passed as explicit function parameters so the definitions stay computable.
* JAX PRNG keys (`jax.random.PRNGKey`) are modelled by the type `Key`;
  `jax.random.split` is modelled as an injective counter-based tree
  labelling built on the `Nat.pair` pairing function, reflecting the
  counter-based (threefry) construction where splits of distinct keys are
  fresh, pairwise distinct keys.
* `jax.random.normal` is modelled by an arbitrary draw function
  `gauss : Key → ℕ → α` supplied as a parameter: every theorem about
  shapes/structure holds for every underlying sampler.
* `jax.random.permutation` is modelled as a Fisher-Yates style selection
  driven by the draw stream of a key.
* `jax.grad` is modelled as an abstract gradient oracle parameter.
-/

/-! ## PRNG key model -/

/-- Model of a `jax.random.PRNGKey` value. -/
structure Key where
  val : ℕ
deriving DecidableEq

/-- Model of `jax.random.split(key, num)`: `num` fresh keys derived from
`key`.  The derived keys are the `Nat.pair`-encodings `(key, i+1)`, an
injective labelling mimicking the counter-based threefry split. -/
def splitN (k : Key) (num : ℕ) : List Key :=
  (List.range num).map (fun i => ⟨Nat.pair k.val (i + 1)⟩)

/-- Model of the two-way `jax.random.split(key)` (the default `num=2`). -/
def split (k : Key) : Key × Key :=
  (⟨Nat.pair k.val 1⟩, ⟨Nat.pair k.val 2⟩)

/-- Model of the stream of pseudo-random naturals drawn from a key
(used to drive the Fisher-Yates permutation). -/
def keyStream (k : Key) (i : ℕ) : ℕ :=
  Nat.pair k.val i

/-! ## Numeric list/matrix primitives (numpy/jnp operations) -/

variable {α : Type} [LinearOrderedField α]

/-- A vector: a rank-1 array. -/
abbrev Vec (α : Type) := List α

/-- A matrix: a rank-2 array as a list of rows. -/
abbrev Mat (α : Type) := List (List α)

/-- The source `relu(x) = jnp.maximum(0, x)` applied to one entry. -/
def relu (x : α) : α := max 0 x

/-- Dot product of two vectors (`jnp.dot` on rank-1 arguments). -/
def dotv (u v : Vec α) : α := (List.zipWith (· * ·) u v).sum

/-- Entrywise vector addition. -/
def addv (u v : Vec α) : Vec α := List.zipWith (· + ·) u v

/-- Matrix-vector product `jnp.dot(w, x)`. -/
def matvec (w : Mat α) (x : Vec α) : Vec α := w.map (fun r => dotv r x)

/-- Sum of all entries of a matrix. -/
def sumAll (m : Mat α) : α := (m.map List.sum).sum

/-- Number of entries of a matrix. -/
def cntAll (m : Mat α) : ℕ := (m.map List.length).sum

/-- The mean of all entries (`jnp.mean` on a rank-2 array). -/
def meanAll (m : Mat α) : α := sumAll m / (cntAll m : α)

/-- Entrywise (Hadamard) product of two matrices (`preds * targets`). -/
def hadamard (a b : Mat α) : Mat α := List.zipWith (List.zipWith (· * ·)) a b

/-! ## The pure-JAX model: parameters, forward pass, loss -/

/-- One dense layer: a weight matrix and a bias vector. -/
abbrev Layer (α : Type) := Mat α × Vec α

/-- The parameter pytree of the pure-JAX notebook: a list of layers. -/
abbrev Params (α : Type) := List (Layer α)

/-- Model of `jax.random.normal(key, (n,))` with draw function `gauss`. -/
def normalVec (gauss : Key → ℕ → α) (k : Key) (n : ℕ) : Vec α :=
  (List.range n).map (gauss k)

/-- Model of `jax.random.normal(key, (n, m))` with draw function `gauss`;
entry `(i, j)` is draw number `i*m + j`. -/
def normalMat (gauss : Key → ℕ → α) (k : Key) (n m : ℕ) : Mat α :=
  (List.range n).map (fun i => (List.range m).map (fun j => gauss k (i * m + j)))

/-- Scalar multiple of a vector. -/
def smulVec (c : α) (v : Vec α) : Vec α := v.map (fun x => c * x)

/-- Scalar multiple of a matrix. -/
def smulMat (c : α) (m : Mat α) : Mat α := m.map (fun r => r.map (fun x => c * x))

/-- Source `random_layer_params(m, n, key, scale=1e-2)`: splits `key` into
`w_key, b_key` and returns `(scale * normal(w_key, (n, m)), scale *
normal(b_key, (n,)))`. -/
def random_layer_params (gauss : Key → ℕ → α) (m n : ℕ) (key : Key) (scale : α) :
    Layer α :=
  let w_key := (split key).1
  let b_key := (split key).2
  (smulMat scale (normalMat gauss w_key n m), smulVec scale (normalVec gauss b_key n))

/-- Source `init_network_params(sizes, key)`: splits `key` into
`len(sizes)` keys and builds one `random_layer_params m n k` per element of
`zip(sizes[:-1], sizes[1:], keys)` with the default scale `1e-2`. -/
def init_network_params (gauss : Key → ℕ → α) (sizes : List ℕ) (key : Key) :
    Params α :=
  let keys := splitN key sizes.length
  List.zipWith3 (fun m n k => random_layer_params gauss m n k (1 / 100))
    sizes.dropLast sizes.tail keys

/-- Source `model_forward(params, x)`: affine layer plus `relu` for every
layer but the last, then the final affine layer.  The source indexes
`params[-1]` and so errors on an empty parameter list; that unreachable
case is modelled as returning `x` unchanged. -/
def model_forward : Params α → Vec α → Vec α
  | [], x => x
  | [(w, b)], x => addv (matvec w x) b
  | (w, b) :: l :: rest, x =>
      model_forward (l :: rest) ((addv (matvec w x) b).map relu)

/-- Source `batched_forward = vmap(model_forward, in_axes=(None, 0))`:
the forward pass mapped over the rows of the image batch. -/
def batched_forward (params : Params α) (images : Mat α) : Mat α :=
  images.map (model_forward params)

/-- Source `one_hot(x, k)`: the matrix `x[:, None] == arange(k)` cast to
float. -/
def one_hot (x : List ℕ) (k : ℕ) : Mat α :=
  x.map (fun l => (List.range k).map (fun j => if l = j then 1 else 0))

/-- Source `logsumexp(logits)` from `jax.scipy.special` applied with no
axis argument: the log of the sum of exponentials of ALL entries of the
matrix, a single scalar.  `ex`/`lg` stand for `exp`/`log`. -/
def logsumexpAll (ex lg : α → α) (m : Mat α) : α :=
  lg (sumAll (m.map (fun r => r.map ex)))

/-- Source `loss(params, images, targets)` of the pure-JAX notebook:
`preds = logits - logsumexp(logits)` (the whole-matrix scalar logsumexp
broadcast over the matrix) and `-jnp.mean(preds * targets)` (mean over all
entries of the entrywise product). -/
def loss (ex lg : α → α) (params : Params α) (images targets : Mat α) : α :=
  let logits := batched_forward params images;
  let lse := logsumexpAll ex lg logits;
  let preds := logits.map (fun r => r.map (fun z => z - lse));
  -(meanAll (hadamard preds targets))

/-- Stated from the claim (the quantity `optax.softmax_cross_entropy`
computes): the per-row softmax cross-entropy, i.e. the logsumexp of one
row of logits minus the inner product of that row with the target row
(for a one-hot target row, the logit of the true class). -/
def softmax_cross_entropy (ex lg : α → α) (logitsRow labelsRow : Vec α) : α :=
  lg ((logitsRow.map ex).sum) - dotv logitsRow labelsRow

/-- Stated from the claim: the mean over batch rows of the per-row softmax
cross-entropy between `batched_forward params images` and `targets`. -/
def lossClaim (ex lg : α → α) (params : Params α) (images targets : Mat α) : α :=
  let logits := batched_forward params images
  (List.zipWith (softmax_cross_entropy ex lg) logits targets).sum / (logits.length : α)

/-! ## SGD update (pure-JAX notebook) -/

/-- Model of `jax.tree_util.tree_map(f, params, grads)` on the parameter
pytree of the notebook (a list of `(w, b)` pairs whose leaves are the
arrays `w` and `b`, mapped entrywise). -/
def tree_map2 (f : α → α → α) (p g : Params α) : Params α :=
  List.zipWith
    (fun (pl gl : Layer α) =>
      (List.zipWith (List.zipWith f) pl.1 gl.1, List.zipWith f pl.2 gl.2))
    p g

/-- Source `sgd_update(params, x, y, lr)`: computes `grads =
grad(loss)(params, x, y)` (the autodiff is library code, modelled by the
abstract gradient oracle `gradLoss`) and returns
`tree_map(lambda p, g: p - lr * g, params, grads)`. -/
def sgd_update (gradLoss : Params α → Mat α → Mat α → Params α)
    (params : Params α) (x y : Mat α) (lr : α) : Params α :=
  let grads := gradLoss params x y;
  tree_map2 (fun p g => p - lr * g) params grads

/-! ## Accuracy / evaluation loops -/

/-- Model of `jnp.argmax` on a vector: the index of the first occurrence
of the maximal entry (`bi`/`bv` track the index and value of the current
best, `i` the index of the head of the remaining list). -/
def argmaxAux : List α → ℕ → ℕ → α → ℕ
  | [], _, bi, _ => bi
  | x :: xs, i, bi, bv =>
      if bv < x then argmaxAux xs (i + 1) i x else argmaxAux xs (i + 1) bi bv

/-- Model of `jnp.argmax` on a vector (the empty case is a numpy error,
modelled as index 0). -/
def argmax : List α → ℕ
  | [] => 0
  | x :: xs => argmaxAux xs 1 0 x

/-- The number of matches contributed by one batch of the `accuracy`
loop: `jnp.sum(argmax(batched_forward(params, x), axis=1) == y)`. -/
def countCorrect (params : Params α) (x : Mat α) (y : List ℕ) : ℕ :=
  (List.zipWith (fun r yi => if argmax r = yi then 1 else 0)
    (batched_forward params x) y).sum

/-- Source `accuracy(params, loader)` of the pure-JAX notebook: folds over
the loader batches accumulating `total_acc += jnp.sum(pred == y)` and
`total_num += len(x)`, then returns `total_acc / total_num`. -/
def accuracy (params : Params α) (loader : List (Mat α × List ℕ)) : α :=
  let st := loader.foldl
    (fun (st : ℕ × ℕ) b => (st.1 + countCorrect params b.1 b.2, st.2 + b.1.length))
    (0, 0);
  (st.1 : α) / (st.2 : α)

/-- The number of matches contributed by one batch of the Flax notebook
`eval_model` loop, with `predict` standing for
`apply_model(state, x) = argmax(state.apply_fn(state.params, x), -1)`. -/
def countCorrectPred (predict : Mat α → List ℕ) (x : Mat α) (y : List ℕ) : ℕ :=
  (List.zipWith (fun p yi => if p = yi then 1 else 0) (predict x) y).sum

/-- Source `eval_model(state, loader)` of the Flax notebook: the same
accumulation loop as `accuracy`, with the model forward pass abstracted
into `predict`. -/
def eval_model (predict : Mat α → List ℕ) (loader : List (Mat α × List ℕ)) : α :=
  let st := loader.foldl
    (fun (st : ℕ × ℕ) b => (st.1 + countCorrectPred predict b.1 b.2, st.2 + b.1.length))
    (0, 0);
  (st.1 : α) / (st.2 : α)

/-- Total number of examples yielded by a loader (the claim letter `N`). -/
def totalNum (loader : List (Mat α × List ℕ)) : ℕ :=
  (loader.map (fun b => b.1.length)).sum

/-- Total number of correctly classified examples over a loader. -/
def totalCorrect (params : Params α) (loader : List (Mat α × List ℕ)) : ℕ :=
  (loader.map (fun b => countCorrect params b.1 b.2)).sum

/-- Total number of correct predictions of `predict` over a loader. -/
def totalCorrectPred (predict : Mat α → List ℕ) (loader : List (Mat α × List ℕ)) : ℕ :=
  (loader.map (fun b => countCorrectPred predict b.1 b.2)).sum

/-! ## The JAX random sampler -/

/-- Fisher-Yates style selection driven by the draw stream `rand`: with
`n` elements remaining, draw `rand n`, select position `rand n % n`,
output the selected element and recurse on the remainder.  The fuel
argument equals the list length at every call. -/
def fyAux (rand : ℕ → ℕ) : ℕ → List ℕ → List ℕ
  | 0, _ => []
  | _, [] => []
  | fuel + 1, x :: xs =>
      let n := xs.length + 1;
      let j := rand n % n;
      (x :: xs).getD j x :: fyAux rand fuel ((x :: xs).eraseIdx j)

/-- Model of `jax.random.permutation(key, l)` for a rank-1 array `l`:
Fisher-Yates selection driven by the pseudo-random stream of `key`. -/
def jaxPermutation (key : Key) (l : List ℕ) : List ℕ :=
  fyAux (keyStream key) l.length l

/-- The state of a `JAXRandomSampler`: the length of its data source and
the stored `rng_key`. -/
structure SamplerState where
  n : ℕ
  rng_key : Key
deriving DecidableEq

/-- Source `JAXRandomSampler.__iter__`: split the stored key, store the
first half back into `self.rng_key`, and return the permutation of
`arange(len(self))` drawn from the second half. -/
def samplerIter (s : SamplerState) : SamplerState × List ℕ :=
  let ks := split s.rng_key;
  (⟨s.n, ks.1⟩, jaxPermutation ks.2 (List.range s.n))

/-- The sampler state after `i` complete passes (epochs). -/
def samplerStateAfter (s : SamplerState) : ℕ → SamplerState
  | 0 => s
  | i + 1 => (samplerIter (samplerStateAfter s i)).1

/-- The index sequence yielded by epoch `i` (counting from 0) of a sampler
constructed with data-source length `n` and key `k`. -/
def samplerEpochOutput (n : ℕ) (k : Key) (i : ℕ) : List ℕ :=
  (samplerIter (samplerStateAfter ⟨n, k⟩ i)).2

/-- The key stored in the sampler after `i` epochs (a pure function of the
construction key). -/
def storedKey (k : Key) : ℕ → Key
  | 0 => k
  | i + 1 => (split (storedKey k i)).1

/-- The key epoch `i` draws its permutation from. -/
def currentKey (k : Key) (i : ℕ) : Key :=
  (split (storedKey k i)).2

/-! ## The NumpyLoader -/

/-- The sampler installed by `NumpyLoader.__init__`: a `JAXRandomSampler`
over the dataset when `shuffle=True`, else a torch `SequentialSampler`.
The `rng_key` argument defaults to `None`, modelled by `Option Key`. -/
inductive SamplerKind where
  | jaxRandom (rng_key : Option Key)
  | sequential
deriving DecidableEq

/-- Source `NumpyLoader.__init__` sampler selection. -/
def NumpyLoader.sampler (shuffle : Bool) (rng_key : Option Key) : SamplerKind :=
  if shuffle then .jaxRandom rng_key else .sequential

/-- The index sequence a sampler yields for epoch `i` over a data source
of length `n`.  A `SequentialSampler` yields `0, ..., n-1` in order every
epoch.  A `JAXRandomSampler` constructed with `rng_key=None` crashes
inside `jax.random.split` on first use; that error state is modelled as
the empty sequence. -/
def samplerIndices (n : ℕ) (s : SamplerKind) (epoch : ℕ) : List ℕ :=
  match s with
  | .sequential => List.range n
  | .jaxRandom none => []
  | .jaxRandom (some k) => samplerEpochOutput n k epoch

/-- Batching performed by the torch `DataLoader` wrapped by `NumpyLoader`:
consecutive chunks of `bs` indices; with `drop_last = true` a final
incomplete chunk is dropped.  `bs = 0` is a `DataLoader` error, modelled
as no batches. -/
def chunkBatches (bs : ℕ) (drop_last : Bool) : List ℕ → List (List ℕ)
  | [] => []
  | x :: xs =>
      if _h : bs = 0 then []
      else
        if drop_last && decide (((x :: xs).take bs).length < bs) then []
        else (x :: xs).take bs :: chunkBatches bs drop_last ((x :: xs).drop bs)
termination_by l => l.length
decreasing_by
  simp only [List.length_drop, List.length_cons]
  omega

/-- The observable per-epoch behavior of a `NumpyLoader`: the ordered list
of index batches it yields in epoch `i` (the data batches are the images
of these indices under the dataset and collation, which are
key-independent maps). -/
def loaderEpochBatches (n : ℕ) (rng_key : Option Key) (bs : ℕ) (shuffle : Bool)
    (drop_last : Bool) (epoch : ℕ) : List (List ℕ) :=
  chunkBatches bs drop_last (samplerIndices n (NumpyLoader.sampler shuffle rng_key) epoch)

/-! ## The numpy_collate model

Python values reaching `numpy_collate` are modelled by `PyObj`: numpy
arrays (shape plus flat row-major data, as in numpy itself), tuples,
lists, and scalars.  Error outcomes (exceptions) are modelled by `none`.
Two behaviors of the Python ecosystem are modelled coarsely, in ways no
claim exercises: `np.stack`/`np.array` coerce non-array elements with
`np.asarray` (here: only homogeneous batches succeed), and `zip` can
iterate a numpy array (here: only tuples and lists are iterable). -/

/-- A numpy ndarray: a shape and flat data. -/
structure NDArr (α : Type) where
  shape : List ℕ
  data : List α
deriving DecidableEq

/-- A Python value passed to `numpy_collate`. -/
inductive PyObj (α : Type) where
  | arr (a : NDArr α)
  | tup (xs : List (PyObj α))
  | lst (xs : List (PyObj α))
  | scalar (x : α)

mutual

/-- Size of a `PyObj` (number of constructors through tuples/lists): a
strict bound on the nesting depth, used as recursion fuel below. -/
def psize : PyObj α → ℕ
  | .scalar _ => 1
  | .arr _ => 1
  | .tup xs => psizeList xs + 1
  | .lst xs => psizeList xs + 1

/-- Total size of a list of `PyObj` values. -/
def psizeList : List (PyObj α) → ℕ
  | [] => 0
  | x :: xs => psize x + psizeList xs

end

/-- The elements a Python value yields when iterated by `zip(*batch)`:
tuples and lists yield their components; scalars raise `TypeError`
(arrays, iterable in Python, are modelled as errors too; see the section
comment). -/
def components? : PyObj α → Option (List (PyObj α))
  | .tup xs => some xs
  | .lst xs => some xs
  | _ => none

/-- Heads and tails of a list of lists; `none` if any list is empty
(python `zip` stops there). -/
def heads? : List (List β) → Option (List β × List (List β))
  | [] => some ([], [])
  | [] :: _ => none
  | (x :: xs) :: rest => (heads? rest).map (fun p => (x :: p.1, xs :: p.2))

/-- Helper for `pyZip`: structural recursion on the first row. -/
def pyZipAux : List β → List (List β) → List (List β)
  | [], _ => []
  | x :: xs, rest =>
      match heads? rest with
      | none => []
      | some (hs, ts) => (x :: hs) :: pyZipAux xs ts

/-- Model of Python `zip(*rows)`: the list of columns, truncated at the
shortest row; `zip()` of no rows is empty. -/
def pyZip : List (List β) → List (List β)
  | [] => []
  | r :: rest => pyZipAux r rest

/-- Model of `np.asarray` dispatch inside `np.stack`: only genuine arrays
are accepted (see the section comment). -/
def asArr? : PyObj α → Option (NDArr α)
  | .arr a => some a
  | _ => none

/-- Model of a scalar entry of `np.array(batch)`. -/
def asScalar? : PyObj α → Option α
  | .scalar x => some x
  | _ => none

/-- Model of `np.stack(batch)`: requires every element to be an array and
all shapes equal (else numpy raises `ValueError`); stacks along a new
leading axis. -/
def npStack (batch : List (PyObj α)) : Option (PyObj α) := do
  let arrs ← batch.mapM asArr?
  match arrs with
  | [] => none
  | a :: rest =>
      if ∀ x ∈ rest, x.shape = a.shape then
        some (.arr ⟨batch.length :: a.shape, ((a :: rest).map NDArr.data).flatten⟩)
      else none

/-- Model of the final `np.array(batch)` branch: requires every element
to be a scalar (else numpy raises on the inhomogeneous input) and builds
a rank-1 array. -/
def npArray1d (batch : List (PyObj α)) : Option (PyObj α) :=
  (batch.mapM asScalar?).map (fun vals => .arr ⟨[vals.length], vals⟩)

/-- Fuelled body of `numpy_collate`.  The Python function recurses on the
columns of `zip(*batch)`; the fuel argument (spent only when descending
into the tuple/list branch) is a modelling device, shown below to be
irrelevant once it exceeds the nesting depth of the batch.  The `[]` case
is the `IndexError` raised by `batch[0]`. -/
def collateF : ℕ → List (PyObj α) → Option (PyObj α)
  | _, [] => none
  | fuel, b :: bs =>
      match b with
      | .arr _ => npStack (b :: bs)
      | .scalar _ => npArray1d (b :: bs)
      | _ =>
          match fuel with
          | 0 => none
          | f + 1 => do
              let rows ← (b :: bs).mapM components?
              let res ← (pyZip rows).mapM (collateF f)
              some (.lst res)

/-- Source `numpy_collate(batch)`.  The fuel bounds the nesting depth of
every batch element, which is shown below to make its value irrelevant. -/
def numpy_collate (batch : List (PyObj α)) : Option (PyObj α) :=
  collateF (psizeList batch + 1) batch

/-! # Theorems -/

/-! ## Permutation properties of the sampler (claims C2, C5) -/

/-- Selecting any position and the remainder is a permutation of the list. -/
theorem perm_getD_cons_eraseIdx (l : List ℕ) (j : ℕ) (d : ℕ) (hj : j < l.length) :
    l.Perm (l.getD j d :: l.eraseIdx j) := by
  rw [List.getD_eq_getElem l d hj]
  exact (List.perm_cons_erase (List.getElem_mem hj)).trans
    ((List.erase_getElem hj).cons _)

/-- The Fisher-Yates selection loop permutes its input when the fuel
equals the input length. -/
theorem fyAux_perm (rand : ℕ → ℕ) :
    ∀ (fuel : ℕ) (l : List ℕ), l.length = fuel → (fyAux rand fuel l).Perm l := by
  intro fuel
  induction fuel with
  | zero =>
      intro l hl
      rw [List.length_eq_zero] at hl
      subst hl
      simp [fyAux]
  | succ f ih =>
      intro l hl
      match l with
      | [] => simp at hl
      | x :: xs =>
          have hn : 0 < xs.length + 1 := Nat.succ_pos _
          have hj : rand (xs.length + 1) % (xs.length + 1) < (x :: xs).length := by
            simpa using Nat.mod_lt _ hn
          have hlen : ((x :: xs).eraseIdx (rand (xs.length + 1) % (xs.length + 1))).length = f := by
            rw [List.length_eraseIdx]
            simp only [hj, if_pos]
            simpa using hl
          have hrec := ih _ hlen
          simp only [fyAux]
          exact (hrec.cons _).trans (perm_getD_cons_eraseIdx (x :: xs) _ x hj).symm

/-- The modelled `jax.random.permutation` permutes its input. -/
theorem jaxPermutation_perm (key : Key) (l : List ℕ) : (jaxPermutation key l).Perm l :=
  fyAux_perm (keyStream key) l.length l rfl

/-- After `i` epochs the sampler state keeps the data-source length and
holds the `i`-fold first-split of the construction key. -/
theorem samplerStateAfter_eq (n : ℕ) (k : Key) :
    ∀ i, samplerStateAfter ⟨n, k⟩ i = ⟨n, storedKey k i⟩ := by
  intro i
  induction i with
  | zero => rfl
  | succ j ih => simp [samplerStateAfter, ih, samplerIter, storedKey]

/-- Epoch `i` of the sampler outputs the permutation drawn from
`currentKey k i`. -/
theorem samplerEpochOutput_eq (n : ℕ) (k : Key) (i : ℕ) :
    samplerEpochOutput n k i = jaxPermutation (currentKey k i) (List.range n) := by
  simp [samplerEpochOutput, samplerStateAfter_eq, samplerIter, currentKey]

/-- The value of the stored key grows strictly with the epoch index. -/
theorem storedKey_val_strictMono (k : Key) : StrictMono (fun i => (storedKey k i).val) := by
  apply strictMono_nat_of_lt_succ
  intro i
  show (storedKey k i).val < (split (storedKey k i)).1.val
  simp only [split]
  calc (storedKey k i).val ≤ Nat.pair (storedKey k i).val 0 := Nat.left_le_pair _ _
    _ < Nat.pair (storedKey k i).val 1 := Nat.pair_lt_pair_right _ Nat.zero_lt_one

/-- Claim C2: one complete pass over the iterator returned by
`JAXRandomSampler.__iter__` (any epoch `i`) is a permutation of the
indices `0 .. n-1` of the data source: it yields exactly `n` integers and
every integer in `{0, ..., n-1}` appears exactly once. -/
theorem C2_sampler_pass_is_permutation (n : ℕ) (k : Key) (i : ℕ) :
    (samplerEpochOutput n k i).Perm (List.range n)
      ∧ (samplerEpochOutput n k i).length = n
      ∧ ∀ m, m < n → (samplerEpochOutput n k i).count m = 1 := by
  have hperm : (samplerEpochOutput n k i).Perm (List.range n) := by
    rw [samplerEpochOutput_eq]
    exact jaxPermutation_perm _ _
  refine ⟨hperm, ?_, ?_⟩
  · simpa using hperm.length_eq
  · intro m hm
    rw [hperm.count_eq]
    exact List.count_eq_one_of_mem (List.nodup_range n) (List.mem_range.mpr hm)

/-- Witness for C2 at a concrete instance. -/
theorem C2_sampler_pass_is_permutation_witness :
    (samplerEpochOutput 3 ⟨0⟩ 0).count 1 = 1 :=
  (C2_sampler_pass_is_permutation 3 ⟨0⟩ 0).2.2 1 (by norm_num)

/-- Claim C5: every `__iter__` call splits the stored key into two fresh
keys, stores the first back and draws the permutation from the second;
the state and output of every epoch are a pure function of the
construction key (`storedKey`/`currentKey`), and distinct epochs draw
from distinct keys. -/
theorem C5_sampler_rekeying (n : ℕ) (k : Key) (i j : ℕ) (hij : i ≠ j) :
    samplerIter ⟨n, k⟩ = (⟨n, (split k).1⟩, jaxPermutation (split k).2 (List.range n))
      ∧ (split k).1 ≠ k ∧ (split k).2 ≠ k ∧ (split k).1 ≠ (split k).2
      ∧ samplerStateAfter ⟨n, k⟩ i = ⟨n, storedKey k i⟩
      ∧ samplerEpochOutput n k i = jaxPermutation (currentKey k i) (List.range n)
      ∧ currentKey k i ≠ currentKey k j := by
  have hlt : ∀ v : ℕ, v < Nat.pair v 1 :=
    fun v => lt_of_le_of_lt (Nat.left_le_pair v 0) (Nat.pair_lt_pair_right _ Nat.zero_lt_one)
  refine ⟨rfl, ?_, ?_, ?_, samplerStateAfter_eq n k i, samplerEpochOutput_eq n k i, ?_⟩
  · intro h
    have : Nat.pair k.val 1 = k.val := congrArg Key.val h
    exact absurd this (Nat.ne_of_gt (hlt k.val))
  · intro h
    have h2 : Nat.pair k.val 2 = k.val := congrArg Key.val h
    have : k.val < Nat.pair k.val 2 :=
      lt_trans (hlt k.val) (Nat.pair_lt_pair_right _ (by norm_num))
    exact absurd h2 (Nat.ne_of_gt this)
  · intro h
    have : Nat.pair k.val 1 = Nat.pair k.val 2 := congrArg Key.val h
    have := (Nat.pair_eq_pair.mp this).2
    norm_num at this
  · intro h
    have hval : Nat.pair (storedKey k i).val 2 = Nat.pair (storedKey k j).val 2 :=
      congrArg Key.val h
    have heq : (storedKey k i).val = (storedKey k j).val := (Nat.pair_eq_pair.mp hval).1
    exact hij ((storedKey_val_strictMono k).injective heq)

/-- Witness for C5 at a concrete instance. -/
theorem C5_sampler_rekeying_witness :
    currentKey ⟨0⟩ 0 ≠ currentKey ⟨0⟩ 1 :=
  (C5_sampler_rekeying 2 ⟨0⟩ 0 1 (by norm_num)).2.2.2.2.2.2

/-! ## Key-independence of the unshuffled loader (claim C10) -/

/-- Claim C10: with `shuffle=False` the `NumpyLoader` installs a
`SequentialSampler` and its observable per-epoch batches are independent
of the `rng_key` argument (including the default `None`): any two keys
yield the identical batch sequence, namely the in-order chunking of
`0 .. n-1`. -/
theorem C10_loader_key_independent (n : ℕ) (k1 k2 : Option Key) (bs : ℕ)
    (dl : Bool) (epoch : ℕ) :
    NumpyLoader.sampler false k1 = SamplerKind.sequential
      ∧ loaderEpochBatches n k1 bs false dl epoch = loaderEpochBatches n k2 bs false dl epoch
      ∧ loaderEpochBatches n k1 bs false dl epoch = chunkBatches bs dl (List.range n) := by
  refine ⟨rfl, ?_, ?_⟩ <;> simp [loaderEpochBatches, NumpyLoader.sampler, samplerIndices]

/-! ## Parameter initialization (claim C6) -/

/-- Length of a three-way zip. -/
theorem zipWith3_length {β γ δ ε : Type} (f : β → γ → δ → ε) :
    ∀ (as : List β) (bs : List γ) (cs : List δ),
      (List.zipWith3 f as bs cs).length = min as.length (min bs.length cs.length) := by
  intro as
  induction as with
  | nil => intro bs cs; simp [List.zipWith3]
  | cons a as ih =>
      intro bs cs
      cases bs with
      | nil => simp [List.zipWith3]
      | cons b bs =>
          cases cs with
          | nil => simp [List.zipWith3]
          | cons c cs =>
              simp only [List.zipWith3, List.length_cons, ih]
              omega

/-- Entry `i` of a three-way zip. -/
theorem zipWith3_getD {β γ δ ε : Type} (f : β → γ → δ → ε)
    (da : β) (db : γ) (dc : δ) (dd : ε) :
    ∀ (as : List β) (bs : List γ) (cs : List δ) (i : ℕ),
      i < as.length → i < bs.length → i < cs.length →
      (List.zipWith3 f as bs cs).getD i dd = f (as.getD i da) (bs.getD i db) (cs.getD i dc) := by
  intro as
  induction as with
  | nil => intro bs cs i h1 _ _; simp at h1
  | cons a as ih =>
      intro bs cs i h1 h2 h3
      cases bs with
      | nil => simp at h2
      | cons b bs =>
          cases cs with
          | nil => simp at h3
          | cons c cs =>
              cases i with
              | zero => simp [List.zipWith3]
              | succ i =>
                  simp only [List.zipWith3, List.getD_cons_succ]
                  exact ih bs cs i (by simpa using h1) (by simpa using h2) (by simpa using h3)

/-- Claim C6: for `L = len(sizes) ≥ 1`, `init_network_params` returns
exactly `L-1` layer pairs; the `i`-th pair is `random_layer_params`
applied to `(sizes[i], sizes[i+1])` with the `i`-th key of the `L`-way
split of the input key and the default scale `1e-2`; the `i`-th weight
has shape `(sizes[i+1], sizes[i])` and the `i`-th bias shape
`(sizes[i+1],)`; and the split keys are pairwise distinct. -/
theorem C6_init_network_params (gauss : Key → ℕ → α) (sizes : List ℕ) (key : Key)
    (hL : 1 ≤ sizes.length) :
    (init_network_params gauss sizes key).length = sizes.length - 1
      ∧ (∀ i, i < sizes.length - 1 →
          (init_network_params gauss sizes key).getD i ([], [])
            = random_layer_params gauss (sizes.getD i 0) (sizes.getD (i + 1) 0)
                ((splitN key sizes.length).getD i ⟨0⟩) (1 / 100))
      ∧ (∀ i, i < sizes.length - 1 →
          ((init_network_params gauss sizes key).getD i ([], [])).1.length = sizes.getD (i + 1) 0
            ∧ (∀ r ∈ ((init_network_params gauss sizes key).getD i ([], [])).1,
                r.length = sizes.getD i 0)
            ∧ ((init_network_params gauss sizes key).getD i ([], [])).2.length
                = sizes.getD (i + 1) 0)
      ∧ (∀ i j, i < sizes.length → j < sizes.length → i ≠ j →
          (splitN key sizes.length).getD i ⟨0⟩ ≠ (splitN key sizes.length).getD j ⟨0⟩) := by
  have hdl : sizes.dropLast.length = sizes.length - 1 := List.length_dropLast sizes
  have htl : sizes.tail.length = sizes.length - 1 := List.length_tail sizes
  have hkeys : (splitN key sizes.length).length = sizes.length := by
    simp [splitN]
  have hgetKey : ∀ i, i < sizes.length →
      (splitN key sizes.length).getD i ⟨0⟩ = ⟨Nat.pair key.val (i + 1)⟩ := by
    intro i hi
    have hi2 : i < (splitN key sizes.length).length := by rwa [hkeys]
    rw [List.getD_eq_getElem _ _ hi2]
    simp [splitN]
  have hgetdl : ∀ i, i < sizes.length - 1 → sizes.dropLast.getD i 0 = sizes.getD i 0 := by
    intro i hi
    have hi2 : i < sizes.dropLast.length := by omega
    have hi3 : i < sizes.length := by omega
    rw [List.getD_eq_getElem _ _ hi2, List.getD_eq_getElem _ _ hi3]
    exact List.getElem_dropLast sizes i hi2
  have hgettl : ∀ i, i < sizes.length - 1 → sizes.tail.getD i 0 = sizes.getD (i + 1) 0 := by
    intro i hi
    have hi2 : i < sizes.tail.length := by omega
    have hi3 : i + 1 < sizes.length := by omega
    rw [List.getD_eq_getElem _ _ hi2, List.getD_eq_getElem _ _ hi3]
    exact List.getElem_tail sizes i hi2
  have hgetp : ∀ i, i < sizes.length - 1 →
      (init_network_params gauss sizes key).getD i ([], [])
        = random_layer_params gauss (sizes.getD i 0) (sizes.getD (i + 1) 0)
            ((splitN key sizes.length).getD i ⟨0⟩) (1 / 100) := by
    intro i hi
    unfold init_network_params
    rw [zipWith3_getD _ 0 0 ⟨0⟩ ([], []) _ _ _ i (by omega) (by omega) (by omega),
      hgetdl i hi, hgettl i hi]
  refine ⟨?_, hgetp, ?_, ?_⟩
  · unfold init_network_params
    rw [zipWith3_length, hdl, htl, hkeys]
    omega
  · intro i hi
    rw [hgetp i hi]
    unfold random_layer_params
    refine ⟨?_, ?_, ?_⟩
    · simp [smulMat, normalMat]
    · intro r hr
      simp only [smulMat, normalMat, List.mem_map] at hr
      obtain ⟨r0, hr0, rfl⟩ := hr
      obtain ⟨i0, _, rfl⟩ := hr0
      simp
    · simp [smulVec, normalVec]
  · intro i j hi hj hij h
    rw [hgetKey i hi, hgetKey j hj] at h
    have := (Nat.pair_eq_pair.mp (congrArg Key.val h)).2
    omega

/-- Witness for C6 at a concrete instance. -/
theorem C6_init_network_params_witness :
    (init_network_params (fun _ _ => (0 : ℚ)) [2, 3] ⟨0⟩).length = 1 :=
  (C6_init_network_params (fun _ _ => (0 : ℚ)) [2, 3] ⟨0⟩ (by norm_num)).1

/-! ## The SGD update (claim C4) -/

/-- Entry `i` of a two-way zip, stated with defaults. -/
theorem zipWith_getD {β γ δ : Type} (f : β → γ → δ) (db : β) (dc : γ) (dd : δ)
    (bs : List β) (cs : List γ) (i : ℕ) (h1 : i < bs.length) (h2 : i < cs.length) :
    (List.zipWith f bs cs).getD i dd = f (bs.getD i db) (cs.getD i dc) := by
  have h3 : i < (List.zipWith f bs cs).length := by
    rw [List.length_zipWith]
    omega
  rw [List.getD_eq_getElem _ _ h3, List.getD_eq_getElem _ _ h1, List.getD_eq_getElem _ _ h2]
  exact List.getElem_zipWith

/-- The shape hypothesis `jax.tree_map` relies on: the gradient pytree has
the very structure of the parameter pytree (true of `jax.grad` outputs). -/
def sameLayerShape (pl gl : Layer α) : Prop :=
  pl.1.length = gl.1.length
    ∧ List.Forall₂ (fun (r gr : List α) => r.length = gr.length) pl.1 gl.1
    ∧ pl.2.length = gl.2.length

/-- Claim C4: `sgd_update(params, x, y, lr)` returns a pytree of the same
structure as `params` (same number of layers, same weight/bias shapes) in
which every weight entry and every bias entry is `p - lr * g`, with `g`
the corresponding entry of the gradient oracle output
`gradLoss params x y`; nothing but `p`, `lr` and `g` enters any entry
(the formula holds for every `gradLoss`, `params`, `x`, `y`, `lr`). -/
theorem C4_sgd_update (gradLoss : Params α → Mat α → Mat α → Params α)
    (params : Params α) (x y : Mat α) (lr : α)
    (hshape : List.Forall₂ sameLayerShape params (gradLoss params x y)) :
    (sgd_update gradLoss params x y lr).length = params.length
      ∧ (∀ i, i < params.length →
          (((sgd_update gradLoss params x y lr).getD i ([], [])).1.length
              = ((params.getD i ([], [])).1.length)
            ∧ ((sgd_update gradLoss params x y lr).getD i ([], [])).2.length
              = ((params.getD i ([], [])).2.length)
            ∧ ∀ r, r < (params.getD i ([], [])).1.length →
                (((sgd_update gradLoss params x y lr).getD i ([], [])).1.getD r []).length
                  = (((params.getD i ([], [])).1.getD r []).length)))
      ∧ (∀ i r c, i < params.length → r < (params.getD i ([], [])).1.length →
          c < ((params.getD i ([], [])).1.getD r []).length →
          ((((sgd_update gradLoss params x y lr).getD i ([], [])).1.getD r []).getD c 0)
            = (((params.getD i ([], [])).1.getD r []).getD c 0)
              - lr * ((((gradLoss params x y).getD i ([], [])).1.getD r []).getD c 0))
      ∧ (∀ i c, i < params.length → c < (params.getD i ([], [])).2.length →
          (((sgd_update gradLoss params x y lr).getD i ([], [])).2.getD c 0)
            = ((params.getD i ([], [])).2.getD c 0)
              - lr * (((gradLoss params x y).getD i ([], [])).2.getD c 0)) := by
  set g := gradLoss params x y with hg
  have hlen : params.length = g.length := hshape.length_eq
  have hshape_i : ∀ i, i < params.length →
      sameLayerShape (params.getD i ([], [])) (g.getD i ([], [])) := by
    intro i hi
    have hi2 : i < g.length := by omega
    rw [List.getD_eq_getElem _ _ hi, List.getD_eq_getElem _ _ hi2]
    have := hshape.get hi hi2
    simpa using this
  have hupd : ∀ i, i < params.length →
      (sgd_update gradLoss params x y lr).getD i ([], [])
        = (List.zipWith (List.zipWith (fun p gq => p - lr * gq))
              ((params.getD i ([], [])).1) ((g.getD i ([], [])).1),
           List.zipWith (fun p gq => p - lr * gq)
              ((params.getD i ([], [])).2) ((g.getD i ([], [])).2)) := by
    intro i hi
    unfold sgd_update tree_map2
    rw [← hg, zipWith_getD _ ([], []) ([], []) ([], []) params g i hi (by omega)]
  have hrowlen : ∀ i, i < params.length → ∀ r, r < (params.getD i ([], [])).1.length →
      ((params.getD i ([], [])).1.getD r []).length
        = ((g.getD i ([], [])).1.getD r []).length := by
    intro i hi r hr
    obtain ⟨hw, hrows, hb⟩ := hshape_i i hi
    have hr2 : r < (g.getD i ([], [])).1.length := by omega
    rw [List.getD_eq_getElem _ _ hr, List.getD_eq_getElem _ _ hr2]
    have := hrows.get hr hr2
    simpa using this
  refine ⟨?_, ?_, ?_, ?_⟩
  · unfold sgd_update tree_map2
    rw [← hg, List.length_zipWith]
    omega
  · intro i hi
    obtain ⟨hw, hrows, hb⟩ := hshape_i i hi
    rw [hupd i hi]
    dsimp only
    refine ⟨?_, ?_, ?_⟩
    · rw [List.length_zipWith]
      omega
    · rw [List.length_zipWith]
      omega
    · intro r hr
      have hr2 : r < (g.getD i ([], [])).1.length := by omega
      rw [zipWith_getD _ [] [] [] _ _ r hr hr2, List.length_zipWith]
      have := hrowlen i hi r hr
      omega
  · intro i r c hi hr hc
    obtain ⟨hw, hrows, hb⟩ := hshape_i i hi
    have hr2 : r < (g.getD i ([], [])).1.length := by omega
    have hc2 : c < ((g.getD i ([], [])).1.getD r []).length := by
      have := hrowlen i hi r hr
      omega
    rw [hupd i hi]
    dsimp only
    rw [zipWith_getD _ [] [] [] _ _ r hr hr2, zipWith_getD _ 0 0 0 _ _ c hc hc2, hg]
  · intro i c hi hc
    obtain ⟨hw, hrows, hb⟩ := hshape_i i hi
    rw [hupd i hi]
    dsimp only
    rw [zipWith_getD _ 0 0 0 _ _ c hc (by omega), hg]

/-- Witness for C4 at a concrete instance. -/
theorem C4_sgd_update_witness :
    ((sgd_update (fun p _ _ => p) [([[(3 : ℚ)]], [5])] [] [] 1).getD 0 ([], [])).2.getD 0 0
      = (5 : ℚ) - 1 * 5 :=
  (C4_sgd_update (fun p _ _ => p) [([[(3 : ℚ)]], [5])] [] [] 1
      (List.Forall₂.cons ⟨rfl, List.Forall₂.cons rfl List.Forall₂.nil, rfl⟩ List.Forall₂.nil)).2.2.2
    0 0 (by norm_num) (by norm_num)

/-! ## Accuracy evaluation (claim C7) -/

/-- The accumulation loop of the evaluation routines computes the pair of
global sums. -/
theorem foldl_acc_pair {β : Type} (f g : β → ℕ) :
    ∀ (l : List β) (a b : ℕ),
      l.foldl (fun (st : ℕ × ℕ) x => (st.1 + f x, st.2 + g x)) (a, b)
        = (a + (l.map f).sum, b + (l.map g).sum) := by
  intro l
  induction l with
  | nil => intro a b; simp
  | cons x xs ih =>
      intro a b
      simp only [List.foldl_cons, List.map_cons, List.sum_cons, ih]
      refine Prod.ext ?_ ?_ <;> dsimp only <;> ring

/-- A zip of zero/one indicator values sums to at most the first length. -/
theorem zipWith_count_le {β γ : Type} (f : β → γ → ℕ) (hf : ∀ a b, f a b ≤ 1) :
    ∀ (l1 : List β) (l2 : List γ), (List.zipWith f l1 l2).sum ≤ l1.length := by
  intro l1
  induction l1 with
  | nil => intro l2; simp
  | cons x xs ih =>
      intro l2
      cases l2 with
      | nil => simp
      | cons y ys =>
          simp only [List.zipWith_cons_cons, List.sum_cons, List.length_cons]
          have := ih ys
          have := hf x y
          omega

/-- Per-batch correct count is at most the batch size. -/
theorem countCorrect_le (params : Params α) (x : Mat α) (y : List ℕ) :
    countCorrect params x y ≤ x.length := by
  unfold countCorrect
  calc (List.zipWith (fun r yi => if argmax r = yi then 1 else 0)
          (batched_forward params x) y).sum
      ≤ (batched_forward params x).length :=
        zipWith_count_le _ (fun a b => by split <;> omega) _ _
    _ = x.length := by simp [batched_forward]

omit [LinearOrderedField α] in
/-- Per-batch correct count of an abstract predictor is at most the batch
size: the Flax loop adds `len(x)` to the denominator while comparing
`predict x` with `y`, so a bound needs `predict` to not enlarge the
batch; the `argmax` composite used by `apply_model` satisfies this. -/
theorem countCorrectPred_le (predict : Mat α → List ℕ)
    (hp : ∀ x : Mat α, (predict x).length ≤ x.length) (x : Mat α) (y : List ℕ) :
    countCorrectPred predict x y ≤ x.length := by
  unfold countCorrectPred
  calc (List.zipWith (fun p yi => if p = yi then 1 else 0) (predict x) y).sum
      ≤ (predict x).length := zipWith_count_le _ (fun a b => by split <;> omega) _ _
    _ ≤ x.length := hp x

/-- Claim C7: over a loader holding `N > 0` labelled examples, `accuracy`
(pure-JAX notebook) returns exactly the number of examples whose
predicted class (`argmax` of the logits row) equals the label, divided by
`N`, and that value lies in `[0, 1]`; the Flax `eval_model` loop computes
the same ratio for its predictor (and lies in `[0, 1]` whenever the
predictor yields at most one class per example). -/
theorem C7_accuracy_ratio (params : Params α) (predict : Mat α → List ℕ)
    (loader : List (Mat α × List ℕ)) (hN : 0 < totalNum loader)
    (hp : ∀ x : Mat α, (predict x).length ≤ x.length) :
    accuracy params loader = (totalCorrect params loader : α) / (totalNum loader : α)
      ∧ 0 ≤ accuracy params loader ∧ accuracy params loader ≤ 1
      ∧ eval_model predict loader
          = (totalCorrectPred predict loader : α) / (totalNum loader : α)
      ∧ 0 ≤ eval_model predict loader ∧ eval_model predict loader ≤ 1 := by
  have hcast : (0 : α) < (totalNum loader : α) := by
    exact_mod_cast hN
  have hacc : accuracy params loader
      = (totalCorrect params loader : α) / (totalNum loader : α) := by
    unfold accuracy
    rw [foldl_acc_pair (fun b => countCorrect params b.1 b.2) (fun b => b.1.length) loader 0 0]
    simp [totalCorrect, totalNum]
  have hev : eval_model predict loader
      = (totalCorrectPred predict loader : α) / (totalNum loader : α) := by
    unfold eval_model
    rw [foldl_acc_pair (fun b => countCorrectPred predict b.1 b.2) (fun b => b.1.length) loader 0 0]
    simp [totalCorrectPred, totalNum]
  have hle : totalCorrect params loader ≤ totalNum loader := by
    unfold totalCorrect totalNum
    exact List.sum_le_sum (fun b _ => countCorrect_le params b.1 b.2)
  have hle2 : totalCorrectPred predict loader ≤ totalNum loader := by
    unfold totalCorrectPred totalNum
    exact List.sum_le_sum (fun b _ => countCorrectPred_le predict hp b.1 b.2)
  refine ⟨hacc, ?_, ?_, hev, ?_, ?_⟩
  · rw [hacc]
    positivity
  · rw [hacc, div_le_one hcast]
    exact_mod_cast hle
  · rw [hev]
    positivity
  · rw [hev, div_le_one hcast]
    exact_mod_cast hle2

/-- Witness for C7 at a concrete instance. -/
theorem C7_accuracy_ratio_witness :
    accuracy [([[(1 : ℚ)], [0]], [0, 0])] [([[1]], [0])]
      = ((totalCorrect [([[(1 : ℚ)], [0]], [0, 0])] [([[1]], [0])] : ℚ)
          / (totalNum ([([[(1 : ℚ)]], [0])] : List (Mat ℚ × List ℕ)) : ℚ)) :=
  (C7_accuracy_ratio [([[(1 : ℚ)], [0]], [0, 0])] (fun m => m.map (fun _ => 0))
      [([[1]], [0])] (by norm_num [totalNum])
      (fun x => by simp)).1

/-! ## The pure-JAX loss (claim C1) -/

/-- Counterexample to claim C1 as stated: at one image, one dense layer
with zero weights and biases (so logits `[0, 0]`), and the one-hot target
matrix `[[1, 0]]`, the notebook loss evaluates to `log 2 / 2` while the
claimed mean of per-row softmax cross-entropies is `log 2`; the two are
not equal since `log 2 > 0`. -/
theorem C1_loss_counterexample :
    loss Real.exp Real.log [([[0], [0]], [0, 0])] [[0]] [[1, 0]]
      ≠ lossClaim Real.exp Real.log [([[0], [0]], [0, 0])] [[0]] [[1, 0]] := by
  have hlog : 0 < Real.log 2 := Real.log_pos (by norm_num)
  have hL : loss Real.exp Real.log [([[0], [0]], [0, 0])] [[0]] [[1, 0]]
      = Real.log 2 / 2 := by
    simp [loss, batched_forward, model_forward, matvec, dotv, addv, logsumexpAll,
      sumAll, cntAll, meanAll, hadamard]
    norm_num [Real.exp_zero]
    ring
  have hC : lossClaim Real.exp Real.log [([[0], [0]], [0, 0])] [[0]] [[1, 0]]
      = Real.log 2 := by
    simp [lossClaim, softmax_cross_entropy, batched_forward, model_forward, matvec,
      dotv, addv]
    norm_num [Real.exp_zero]
  rw [hL, hC]
  intro h
  nlinarith

/-- One row of the entrywise product `preds * targets`: subtracting a
constant before the product shifts the dot product by the target row
sum. -/
theorem row_sub_sum (c : ℝ) :
    ∀ (r t : List ℝ), r.length = t.length →
      (List.zipWith (· * ·) (r.map (fun z => z - c)) t).sum = dotv r t - c * t.sum := by
  intro r
  induction r with
  | nil =>
      intro t ht
      have : t = [] := by
        cases t
        · rfl
        · simp at ht
      subst this
      simp [dotv]
  | cons x xs ih =>
      intro t ht
      cases t with
      | nil => simp at ht
      | cons y ys =>
          simp only [List.map_cons, List.zipWith_cons_cons, List.sum_cons, dotv] at ih ⊢
          rw [ih ys (by simpa using ht)]
          ring

/-- Sum of a constant-valued zip. -/
theorem zipWith_const_sum (k : ℕ) :
    ∀ (L T : Mat ℝ),
      (List.zipWith (fun (_ _ : List ℝ) => k) L T).sum = min L.length T.length * k := by
  intro L
  induction L with
  | nil => intro T; simp
  | cons a as ih =>
      intro T
      cases T with
      | nil => simp
      | cons b bs =>
          simp only [List.zipWith_cons_cons, List.sum_cons, List.length_cons, ih]
          rw [Nat.succ_min_succ, Nat.succ_eq_add_one]
          ring

/-- Sum of mapped negations. -/
theorem sum_map_neg_eq (l : List ℝ) : (l.map (fun z => -z)).sum = -l.sum := by
  induction l with
  | nil => simp
  | cons x xs ih =>
      simp [ih]
      ring

/-- Amended claim C1 (changed only as the counterexample forces): with
row-normalized (e.g. one-hot) targets of width `k`, the notebook loss is
NOT the mean of per-row softmax cross-entropies; it equals the sum over
rows of (the logsumexp of the ENTIRE logit matrix minus the true-class
logit of the row) divided by `n * k` — i.e. `1/k` times the mean over
rows of a cross-entropy whose normalizer is shared across the whole
batch. -/
theorem C1_loss_amended (params : Params ℝ) (images targets : Mat ℝ) (k : ℕ)
    (h : List.Forall₂ (fun (r t : List ℝ) => r.length = k ∧ t.length = k ∧ t.sum = 1)
          (batched_forward params images) targets) :
    loss Real.exp Real.log params images targets
      = (List.zipWith
          (fun (r t : List ℝ) =>
            logsumexpAll Real.exp Real.log (batched_forward params images) - dotv r t)
          (batched_forward params images) targets).sum
        / ((images.length * k : ℕ) : ℝ) := by
  set L := batched_forward params images with hLdef
  set c := logsumexpAll Real.exp Real.log L with hcdef
  have hsum : sumAll (hadamard (L.map (fun r => r.map (fun z => z - c))) targets)
      = (List.zipWith (fun (r t : List ℝ) => dotv r t - c) L targets).sum := by
    unfold sumAll hadamard
    rw [List.zipWith_map_left, List.map_zipWith]
    congr 1
    refine List.zipWith_congr _ _ _ _ (h.imp ?_)
    intro r t hrt
    rw [row_sub_sum c r t (by omega)]
    rw [hrt.2.2]
    ring
  have hcnt : cntAll (hadamard (L.map (fun r => r.map (fun z => z - c))) targets)
      = L.length * k := by
    unfold cntAll hadamard
    rw [List.zipWith_map_left, List.map_zipWith]
    have hconst : List.zipWith
        (fun (r t : List ℝ) => (List.zipWith (· * ·) (r.map (fun z => z - c)) t).length)
          L targets
        = List.zipWith (fun (_ _ : List ℝ) => k) L targets := by
      refine List.zipWith_congr _ _ _ _ (h.imp ?_)
      intro r t hrt
      rw [List.length_zipWith]
      simp only [List.length_map]
      omega
    rw [hconst, zipWith_const_sum, h.length_eq, min_self]
  have hneg : (List.zipWith (fun (r t : List ℝ) => c - dotv r t) L targets).sum
      = -(List.zipWith (fun (r t : List ℝ) => dotv r t - c) L targets).sum := by
    have : List.zipWith (fun (r t : List ℝ) => c - dotv r t) L targets
        = (List.zipWith (fun (r t : List ℝ) => dotv r t - c) L targets).map (fun z => -z) := by
      rw [List.map_zipWith]
      refine List.zipWith_congr _ _ _ _ (h.imp ?_)
      intro r t _
      ring
    rw [this, sum_map_neg_eq]
  have hn : L.length = images.length := by
    rw [hLdef]
    simp [batched_forward]
  unfold loss
  dsimp only
  rw [← hLdef, ← hcdef]
  unfold meanAll
  rw [hsum, hcnt, hneg, hn]
  ring

/-- Witness for the amended C1 at the counterexample input. -/
theorem C1_loss_amended_witness :
    loss Real.exp Real.log [([[0], [0]], [0, 0])] [[0]] [[1, 0]]
      = (List.zipWith
          (fun (r t : List ℝ) =>
            logsumexpAll Real.exp Real.log
              (batched_forward [([[0], [0]], [0, 0])] [[0]]) - dotv r t)
          (batched_forward [([[0], [0]], [0, 0])] [[0]]) [[1, 0]]).sum
        / ((List.length ([[(0 : ℝ)]] : Mat ℝ) * 2 : ℕ) : ℝ) :=
  C1_loss_amended [([[0], [0]], [0, 0])] [[0]] [[1, 0]] 2 (by
    have hbf : batched_forward [([[(0 : ℝ)], [0]], [0, 0])] [[0]] = [[0, 0]] := by
      norm_num [batched_forward, model_forward, matvec, dotv, addv]
    rw [hbf]
    exact List.Forall₂.cons ⟨rfl, rfl, by norm_num⟩ List.Forall₂.nil)

/-! ## Collation: fuel irrelevance and structure (claims C3, C8, C9) -/

set_option linter.unusedSectionVars false

theorem collateF_nil (f : ℕ) : collateF f ([] : List (PyObj α)) = none := by
  cases f <;> rfl

theorem collateF_arr (a : NDArr α) (bs : List (PyObj α)) (f : ℕ) :
    collateF f (PyObj.arr a :: bs) = npStack (PyObj.arr a :: bs) := by
  cases f <;> rfl

theorem collateF_scalar (x : α) (bs : List (PyObj α)) (f : ℕ) :
    collateF f (PyObj.scalar x :: bs) = npArray1d (PyObj.scalar x :: bs) := by
  cases f <;> rfl

theorem collateF_tup (xs bs : List (PyObj α)) (f : ℕ) :
    collateF (f + 1) (PyObj.tup xs :: bs)
      = (do
          let rows ← (PyObj.tup xs :: bs).mapM components?
          let res ← (pyZip rows).mapM (collateF f)
          some (PyObj.lst res)) := rfl

theorem collateF_lst (xs bs : List (PyObj α)) (f : ℕ) :
    collateF (f + 1) (PyObj.lst xs :: bs)
      = (do
          let rows ← (PyObj.lst xs :: bs).mapM components?
          let res ← (pyZip rows).mapM (collateF f)
          some (PyObj.lst res)) := rfl

theorem mapM_option_congr {β γ : Type} {f g : β → Option γ} :
    ∀ {l : List β}, (∀ x ∈ l, f x = g x) → l.mapM f = l.mapM g := by
  intro l
  induction l with
  | nil => intro; rfl
  | cons x xs ih =>
      intro h
      simp only [List.mapM_cons, h x (by simp), ih (fun y hy => h y (by simp [hy]))]

theorem mapM_option_mem {β γ : Type} {f : β → Option γ} :
    ∀ {l : List β} {l2 : List γ}, l.mapM f = some l2 → ∀ y ∈ l2, ∃ x ∈ l, f x = some y := by
  intro l
  induction l with
  | nil =>
      intro l2 h y hy
      simp only [List.mapM_nil, Option.pure_def, Option.some_inj] at h
      subst h
      simp at hy
  | cons x xs ih =>
      intro l2 h y hy
      simp only [List.mapM_cons, Option.pure_def, Option.bind_eq_bind, Option.bind_eq_some,
        Option.some.injEq] at h
      obtain ⟨z, hz, l3, hl3, rfl⟩ := h
      rcases List.mem_cons.mp hy with rfl | hy2
      · exact ⟨x, by simp, hz⟩
      · obtain ⟨w, hw, hfw⟩ := ih hl3 y hy2
        exact ⟨w, by simp [hw], hfw⟩

theorem mapM_option_length {β γ : Type} {f : β → Option γ} :
    ∀ {l : List β} {l2 : List γ}, l.mapM f = some l2 → l2.length = l.length := by
  intro l
  induction l with
  | nil =>
      intro l2 h
      simp only [List.mapM_nil, Option.pure_def, Option.some_inj] at h
      subst h
      rfl
  | cons x xs ih =>
      intro l2 h
      simp only [List.mapM_cons, Option.pure_def, Option.bind_eq_bind, Option.bind_eq_some,
        Option.some.injEq] at h
      obtain ⟨z, _, l3, hl3, rfl⟩ := h
      simp [ih hl3]

theorem psize_pos (b : PyObj α) : 1 ≤ psize b := by
  cases b <;> simp [psize]

theorem mem_psizeList_le : ∀ {xs : List (PyObj α)} {y : PyObj α}, y ∈ xs → psize y ≤ psizeList xs := by
  intro xs
  induction xs with
  | nil => intro y hy; simp at hy
  | cons x xs ih =>
      intro y hy
      rcases List.mem_cons.mp hy with rfl | hy2
      · simp [psizeList]
      · have := ih hy2
        simp only [psizeList]
        omega

theorem components?_psize {b : PyObj α} {row : List (PyObj α)}
    (h : components? b = some row) : ∀ y ∈ row, psize y < psize b := by
  intro y hy
  cases b with
  | tup xs =>
      simp only [components?, Option.some_inj] at h
      subst h
      have := mem_psizeList_le hy
      simp only [psize]
      omega
  | lst xs =>
      simp only [components?, Option.some_inj] at h
      subst h
      have := mem_psizeList_le hy
      simp only [psize]
      omega
  | arr a => simp [components?] at h
  | scalar x => simp [components?] at h

theorem heads?_mem {β : Type} :
    ∀ {rows : List (List β)} {hs : List β} {ts : List (List β)},
      heads? rows = some (hs, ts) →
      (∀ y ∈ hs, ∃ row ∈ rows, y ∈ row) ∧ (∀ t ∈ ts, ∃ row ∈ rows, ∀ y ∈ t, y ∈ row) := by
  intro rows
  induction rows with
  | nil =>
      intro hs ts h
      simp only [heads?, Option.some.injEq, Prod.mk.injEq] at h
      obtain ⟨h1, h2⟩ := h
      subst h1
      subst h2
      constructor <;> intro y hy <;> simp at hy
  | cons r rest ih =>
      intro hs ts h
      cases r with
      | nil => simp [heads?] at h
      | cons x xs =>
          cases hre : heads? rest with
          | none => rw [heads?, hre] at h; simp at h
          | some p =>
              obtain ⟨hs0, ts0⟩ := p
              rw [heads?, hre] at h
              simp only [Option.map_some', Option.some.injEq, Prod.mk.injEq] at h
              obtain ⟨h1, h2⟩ := h
              subst h1
              subst h2
              obtain ⟨ih1, ih2⟩ := ih hre
              constructor
              · intro y hy
                rcases List.mem_cons.mp hy with hxy | hy2
                · subst hxy
                  exact ⟨y :: xs, by simp, by simp⟩
                · obtain ⟨row, hrow, hyrow⟩ := ih1 y hy2
                  exact ⟨row, by simp [hrow], hyrow⟩
              · intro t ht
                rcases List.mem_cons.mp ht with hxt | ht2
                · subst hxt
                  exact ⟨x :: t, by simp, fun y hy => by simp [hy]⟩
                · obtain ⟨row, hrow, hsub⟩ := ih2 t ht2
                  exact ⟨row, by simp [hrow], hsub⟩

theorem pyZipAux_mem {β : Type} :
    ∀ (r : List β) (rest : List (List β)) (col : List β) (y : β),
      col ∈ pyZipAux r rest → y ∈ col → y ∈ r ∨ ∃ row ∈ rest, y ∈ row := by
  intro r
  induction r with
  | nil => intro rest col y hcol; simp [pyZipAux] at hcol
  | cons x xs ih =>
      intro rest col y hcol hy
      simp only [pyZipAux] at hcol
      cases hre : heads? rest with
      | none => rw [hre] at hcol; simp at hcol
      | some p =>
          obtain ⟨hs, ts⟩ := p
          rw [hre] at hcol
          simp only [List.mem_cons] at hcol
          rcases hcol with rfl | hcol2
          · rcases List.mem_cons.mp hy with rfl | hy2
            · exact Or.inl (by simp)
            · obtain ⟨row, hrow, hyrow⟩ := (heads?_mem hre).1 y hy2
              exact Or.inr ⟨row, hrow, hyrow⟩
          · rcases ih ts col y hcol2 hy with hxs | ⟨t, ht, hyt⟩
            · exact Or.inl (by simp [hxs])
            · obtain ⟨row, hrow, hsub⟩ := (heads?_mem hre).2 t ht
              exact Or.inr ⟨row, hrow, hsub y hyt⟩

theorem pyZip_mem {β : Type} {rows : List (List β)} {col : List β} {y : β}
    (hcol : col ∈ pyZip rows) (hy : y ∈ col) : ∃ row ∈ rows, y ∈ row := by
  cases rows with
  | nil => simp [pyZip] at hcol
  | cons r rest =>
      rcases pyZipAux_mem r rest col y hcol hy with h | ⟨row, hrow, hyrow⟩
      · exact ⟨r, by simp, h⟩
      · exact ⟨row, by simp [hrow], hyrow⟩

theorem collateF_fuel_irrel :
    ∀ (f1 : ℕ) (batch : List (PyObj α)) (f2 : ℕ),
      (∀ b ∈ batch, psize b ≤ f1) → (∀ b ∈ batch, psize b ≤ f2) →
      collateF f1 batch = collateF f2 batch := by
  intro f1
  induction f1 with
  | zero =>
      intro batch f2 h1 h2
      cases batch with
      | nil => simp [collateF_nil]
      | cons b bs =>
          cases b with
          | arr a => rw [collateF_arr, collateF_arr]
          | scalar x => rw [collateF_scalar, collateF_scalar]
          | tup xs =>
              exfalso
              have ha := h1 (PyObj.tup xs) (by simp)
              have hb := psize_pos (PyObj.tup xs) (α := α)
              omega
          | lst xs =>
              exfalso
              have ha := h1 (PyObj.lst xs) (by simp)
              have hb := psize_pos (PyObj.lst xs) (α := α)
              omega
  | succ f ih =>
      intro batch f2 h1 h2
      cases batch with
      | nil => simp [collateF_nil]
      | cons b bs =>
          have hcols : ∀ (rows : List (List (PyObj α))),
              (b :: bs).mapM components? = some rows →
              (pyZip rows).mapM (collateF f) = (pyZip rows).mapM (collateF (f2 - 1)) := by
            intro rows hrows
            refine mapM_option_congr ?_
            intro col hcol
            refine ih col (f2 - 1) ?_ ?_
            · intro y hy
              obtain ⟨row, hrow, hyrow⟩ := pyZip_mem hcol hy
              obtain ⟨b2, hb2, hcomp⟩ := mapM_option_mem hrows row hrow
              have := components?_psize hcomp y hyrow
              have := h1 b2 hb2
              omega
            · intro y hy
              obtain ⟨row, hrow, hyrow⟩ := pyZip_mem hcol hy
              obtain ⟨b2, hb2, hcomp⟩ := mapM_option_mem hrows row hrow
              have h3 := components?_psize hcomp y hyrow
              have h4 := h2 b2 hb2
              omega
          cases b with
          | arr a => rw [collateF_arr, collateF_arr]
          | scalar x => rw [collateF_scalar, collateF_scalar]
          | tup xs =>
              have hp : 1 ≤ psize (PyObj.tup xs) (α := α) := psize_pos _
              have hf2 : f2 - 1 + 1 = f2 := by
                have := h2 (PyObj.tup xs) (List.mem_cons_self _ _)
                omega
              rw [← hf2, collateF_tup, collateF_tup]
              simp only [Option.bind_eq_bind]
              refine Option.bind_congr ?_
              intro rows hrows
              rw [Option.mem_def] at hrows
              simp only [hcols rows hrows]
          | lst xs =>
              have hp : 1 ≤ psize (PyObj.lst xs) (α := α) := psize_pos _
              have hf2 : f2 - 1 + 1 = f2 := by
                have := h2 (PyObj.lst xs) (List.mem_cons_self _ _)
                omega
              rw [← hf2, collateF_lst, collateF_lst]
              simp only [Option.bind_eq_bind]
              refine Option.bind_congr ?_
              intro rows hrows
              rw [Option.mem_def] at hrows
              simp only [hcols rows hrows]

theorem numpy_collate_fuel (batch : List (PyObj α)) (fuel : ℕ)
    (h : ∀ b ∈ batch, psize b ≤ fuel) : collateF fuel batch = numpy_collate batch := by
  unfold numpy_collate
  refine collateF_fuel_irrel fuel batch (psizeList batch + 1) h ?_
  intro b hb
  have := mem_psizeList_le hb
  omega

theorem mapM_components_map_tup :
    ∀ (rows : List (List (PyObj α))), (rows.map PyObj.tup).mapM components? = some rows := by
  intro rows
  induction rows with
  | nil => rfl
  | cons r rest ih =>
      simp only [List.map_cons, List.mapM_cons, components?, ih, Option.pure_def,
        Option.bind_eq_bind, Option.some_bind]

theorem mapM_components_map_lst :
    ∀ (rows : List (List (PyObj α))), (rows.map PyObj.lst).mapM components? = some rows := by
  intro rows
  induction rows with
  | nil => rfl
  | cons r rest ih =>
      simp only [List.map_cons, List.mapM_cons, components?, ih, Option.pure_def,
        Option.bind_eq_bind, Option.some_bind]

theorem mapM_asArr_map :
    ∀ (l : List (NDArr α)), (l.map PyObj.arr).mapM asArr? = some l := by
  intro l
  induction l with
  | nil => rfl
  | cons a rest ih =>
      simp only [List.map_cons, List.mapM_cons, asArr?, ih, Option.pure_def,
        Option.bind_eq_bind, Option.some_bind]

theorem heads?_rect {β : Type} (d : β) :
    ∀ (rows : List (List β)) (k : ℕ), (∀ r ∈ rows, r.length = k + 1) →
      heads? rows = some (rows.map (fun r => r.headD d), rows.map List.tail) := by
  intro rows
  induction rows with
  | nil => intro k _; rfl
  | cons r rest ih =>
      intro k hk
      cases r with
      | nil =>
          have := hk [] (by simp)
          simp at this
      | cons x xs =>
          have hrest : ∀ r2 ∈ rest, r2.length = k + 1 := fun r2 h2 => hk r2 (by simp [h2])
          simp only [heads?, ih k hrest, Option.map_some', List.map_cons]
          rfl

theorem pyZip_rect {β : Type} (d : β) :
    ∀ (k : ℕ) (rows : List (List β)), rows ≠ [] → (∀ r ∈ rows, r.length = k) →
      pyZip rows = (List.range k).map (fun j => rows.map (fun r => r.getD j d)) := by
  intro k
  induction k with
  | zero =>
      intro rows hne hk
      cases rows with
      | nil => exact absurd rfl hne
      | cons r rest =>
          have : r = [] := List.length_eq_zero.mp (hk r (by simp))
          subst this
          simp [pyZip, pyZipAux]
  | succ k ih =>
      intro rows hne hk
      cases rows with
      | nil => exact absurd rfl hne
      | cons r rest =>
          obtain ⟨x, xs, rfl⟩ : ∃ x xs, r = x :: xs := by
            cases r with
            | nil => have := hk [] (by simp); simp at this
            | cons x xs => exact ⟨x, xs, rfl⟩
          have hrest : ∀ r2 ∈ rest, r2.length = k + 1 := fun r2 h2 => hk r2 (by simp [h2])
          have hx : xs.length = k := by
            have := hk (x :: xs) (by simp)
            simpa using this
          have htails : ∀ t ∈ xs :: rest.map List.tail, t.length = k := by
            intro t ht
            rcases List.mem_cons.mp ht with rfl | ht2
            · exact hx
            · obtain ⟨r2, h2, rfl⟩ := List.mem_map.mp ht2
              have := hrest r2 h2
              simp only [List.length_tail]
              omega
          have hih := ih (xs :: rest.map List.tail) (by simp) htails
          show pyZipAux (x :: xs) rest = _
          rw [pyZipAux, heads?_rect d rest k hrest]
          simp only
          rw [show pyZipAux xs (rest.map List.tail) = pyZip (xs :: rest.map List.tail) from rfl,
            hih, List.range_succ_eq_map]
          simp only [List.map_cons, List.map_map]
          congr 1
          · simp only [List.getD_cons_zero]
            congr 1
            refine List.map_congr_left ?_
            intro r2 h2
            have := hrest r2 h2
            cases r2 with
            | nil => simp at this
            | cons a l => rfl
          · refine List.map_congr_left ?_
            intro j _
            simp only [Function.comp_apply, List.map_cons, List.getD_cons_succ, List.map_map]
            congr 1
            refine List.map_congr_left ?_
            intro r2 _
            cases r2 with
            | nil => rfl
            | cons a l => rfl

theorem numpy_collate_seq_eq (b : PyObj α) (bs : List (PyObj α))
    (rows : List (List (PyObj α)))
    (hb : (∃ xs, b = PyObj.tup xs) ∨ (∃ xs, b = PyObj.lst xs))
    (hrows : (b :: bs).mapM components? = some rows) :
    numpy_collate (b :: bs) = Option.map PyObj.lst ((pyZip rows).mapM numpy_collate) := by
  have hcols : (pyZip rows).mapM (collateF (psizeList (b :: bs)))
      = (pyZip rows).mapM numpy_collate := by
    refine mapM_option_congr ?_
    intro col hcol
    refine numpy_collate_fuel col (psizeList (b :: bs)) ?_
    intro y hy
    obtain ⟨row, hrow, hyrow⟩ := pyZip_mem hcol hy
    obtain ⟨b2, hb2, hcomp⟩ := mapM_option_mem hrows row hrow
    have h3 := components?_psize hcomp y hyrow
    have h4 := mem_psizeList_le hb2
    omega
  have hfinish : ∀ m : Option (List (PyObj α)),
      m.bind (fun res => some (PyObj.lst res)) = Option.map PyObj.lst m := by
    intro m
    cases m <;> rfl
  rcases hb with ⟨xs, rfl⟩ | ⟨xs, rfl⟩
  · show collateF (psizeList (PyObj.tup xs :: bs) + 1) (PyObj.tup xs :: bs) = _
    rw [collateF_tup, hrows]
    simp only [Option.bind_eq_bind, Option.some_bind]
    rw [hcols, ← hfinish]
  · show collateF (psizeList (PyObj.lst xs :: bs) + 1) (PyObj.lst xs :: bs) = _
    rw [collateF_lst, hrows]
    simp only [Option.bind_eq_bind, Option.some_bind]
    rw [hcols, ← hfinish]

/-- Claim C3: on a non-empty batch of tuples (or lists) of common length
`k`, `numpy_collate` transposes: it returns the list whose `j`-th element
is `numpy_collate` of the sequence of `j`-th components (failing exactly
when a sub-collation fails), and any returned value is a list of length
`k`; on a non-empty batch of numpy arrays of a common shape it returns
the single array stacking them along a new leading axis. -/
theorem C3_collate_transposition :
    (∀ (rows : List (List (PyObj α))) (k : ℕ), rows ≠ [] → (∀ r ∈ rows, r.length = k) →
        (numpy_collate (rows.map PyObj.tup)
          = Option.map PyObj.lst
              (((List.range k).map (fun j => rows.map (fun r => r.getD j (PyObj.tup [])))).mapM
                numpy_collate)
          ∧ ∀ res, numpy_collate (rows.map PyObj.tup) = some res →
              ∃ l, res = PyObj.lst l ∧ l.length = k))
      ∧ (∀ (rows : List (List (PyObj α))) (k : ℕ), rows ≠ [] → (∀ r ∈ rows, r.length = k) →
          numpy_collate (rows.map PyObj.lst)
            = Option.map PyObj.lst
                (((List.range k).map (fun j => rows.map (fun r => r.getD j (PyObj.tup [])))).mapM
                  numpy_collate))
      ∧ (∀ (a : NDArr α) (arrs : List (NDArr α)), (∀ x ∈ arrs, x.shape = a.shape) →
          numpy_collate ((a :: arrs).map PyObj.arr)
            = some (PyObj.arr
                ⟨(arrs.length + 1) :: a.shape, ((a :: arrs).map NDArr.data).flatten⟩)) := by
  have hmain : ∀ (rows : List (List (PyObj α))) (k : ℕ), rows ≠ [] →
      (∀ r ∈ rows, r.length = k) →
      numpy_collate (rows.map PyObj.tup)
        = Option.map PyObj.lst
            (((List.range k).map (fun j => rows.map (fun r => r.getD j (PyObj.tup [])))).mapM
              numpy_collate) := by
    intro rows k hne hk
    cases rows with
    | nil => exact absurd rfl hne
    | cons r rest =>
        have h1 := numpy_collate_seq_eq (PyObj.tup r) (rest.map PyObj.tup) (r :: rest)
          (Or.inl ⟨r, rfl⟩) (mapM_components_map_tup (r :: rest))
        rw [List.map_cons, h1, pyZip_rect (PyObj.tup []) k (r :: rest) (by simp) hk]
  refine ⟨?_, ?_, ?_⟩
  · intro rows k hne hk
    refine ⟨hmain rows k hne hk, ?_⟩
    intro res hres
    rw [hmain rows k hne hk] at hres
    cases hm : ((List.range k).map
        (fun j => rows.map (fun r => r.getD j (PyObj.tup [])))).mapM numpy_collate with
    | none => rw [hm] at hres; simp at hres
    | some l =>
        rw [hm] at hres
        simp only [Option.map_some', Option.some.injEq] at hres
        refine ⟨l, hres.symm, ?_⟩
        have := mapM_option_length hm
        simpa using this
  · intro rows k hne hk
    cases rows with
    | nil => exact absurd rfl hne
    | cons r rest =>
        have h1 := numpy_collate_seq_eq (PyObj.lst r) (rest.map PyObj.lst) (r :: rest)
          (Or.inr ⟨r, rfl⟩) (mapM_components_map_lst (r :: rest))
        rw [List.map_cons, h1, pyZip_rect (PyObj.tup []) k (r :: rest) (by simp) hk]
  · intro a arrs hsh
    show collateF _ _ = _
    rw [List.map_cons, collateF_arr]
    unfold npStack
    rw [show (PyObj.arr a :: arrs.map PyObj.arr).mapM asArr? = some (a :: arrs) from
      mapM_asArr_map (a :: arrs)]
    simp only [Option.bind_eq_bind, Option.some_bind]
    rw [if_pos hsh]
    simp

/-- Witness for C3 at a concrete instance. -/
theorem C3_collate_transposition_witness :
    numpy_collate ([[PyObj.scalar (0 : ℚ)], [PyObj.scalar 1]].map PyObj.tup)
      = Option.map PyObj.lst
          (((List.range 1).map
              (fun j => [[PyObj.scalar (0 : ℚ)], [PyObj.scalar 1]].map
                (fun r => r.getD j (PyObj.tup [])))).mapM numpy_collate) :=
  ((C3_collate_transposition.1 [[PyObj.scalar (0 : ℚ)], [PyObj.scalar 1]] 1
    (by simp) (by simp)).1)

/-- Counterexample to claim C8 as stated: a non-empty batch on which
`numpy_collate` fails to return a value (two arrays of different shapes
make `np.stack` raise `ValueError`), so non-emptiness is not the exact
precondition of success. -/
theorem C8_collate_counterexample :
    numpy_collate [PyObj.arr ⟨[1], [(0 : ℚ)]⟩, PyObj.arr ⟨[2], [0, 0]⟩] = none
      ∧ [PyObj.arr ⟨[1], [(0 : ℚ)]⟩, PyObj.arr ⟨[2], [0, 0]⟩] ≠ ([] : List (PyObj ℚ)) :=
  ⟨rfl, by simp⟩

/-- Amended claim C8 (changed only as the counterexample forces): on the
empty batch `numpy_collate` evaluates `batch[0]` and fails before any
return branch; non-emptiness is NECESSARY for returning a value, but not
sufficient (inner numpy operations may still fail, e.g. `np.stack` on
shape-mismatched arrays). -/
theorem C8_collate_empty_amended :
    numpy_collate ([] : List (PyObj α)) = none
      ∧ ∀ (b : List (PyObj α)) (r : PyObj α), numpy_collate b = some r → b ≠ [] := by
  have hnil : numpy_collate ([] : List (PyObj α)) = none := by
    unfold numpy_collate
    exact collateF_nil _
  refine ⟨hnil, ?_⟩
  intro b r h hb
  subst hb
  rw [hnil] at h
  exact Option.noConfusion h

/-- Witness for the amended C8 at a concrete instance. -/
theorem C8_collate_empty_amended_witness :
    [PyObj.scalar (0 : ℚ)] ≠ ([] : List (PyObj ℚ)) :=
  C8_collate_empty_amended.2 [PyObj.scalar (0 : ℚ)] (PyObj.arr ⟨[1], [0]⟩) rfl

/-- Claim C9: `numpy_collate` terminates on every finite batch: each
recursive call descends to values of strictly smaller size, so any fuel
bounding the sizes of the batch elements yields the same (fuel-free)
result `numpy_collate batch`; no input makes the recursion diverge. -/
theorem C9_collate_terminates (batch : List (PyObj α)) (fuel : ℕ)
    (h : ∀ b ∈ batch, psize b ≤ fuel) :
    collateF fuel batch = numpy_collate batch := by
  unfold numpy_collate
  refine collateF_fuel_irrel fuel batch (psizeList batch + 1) h ?_
  intro b hb
  have := mem_psizeList_le hb
  omega

/-- Witness for C9 at a concrete instance. -/
theorem C9_collate_terminates_witness :
    collateF 50 [PyObj.tup [PyObj.scalar (0 : ℚ)]]
      = numpy_collate [PyObj.tup [PyObj.scalar (0 : ℚ)]] :=
  C9_collate_terminates [PyObj.tup [PyObj.scalar (0 : ℚ)]] 50 (by
    intro b hb
    simp only [List.mem_singleton] at hb
    subst hb
    norm_num [psize, psizeList])
